import Mathlib

/-!
Verification of the Si5351A frequency-synthesis driver
(`src/examples/si5351-clock-generator/files/sdr/Si5351_routines.c`, with the
constants of `Si5351SDR.h`).

The C functions are shallowly embedded:

* `sendRegister` produces a one-element write trace `(address, value)`, both
  truncated to 8 bits (the C parameters are `char`).
* 32-bit unsigned arithmetic is modelled by `% 2 ^ 32` (`u32` on integer
  expressions that may go negative), 8-bit values by `% 2 ^ 8`.
* The C `float` computations are modelled exactly: `fl : ℚ → ℚ` rounds a
  rational to the nearest IEEE-754 binary32 value (24-bit significand,
  round-to-nearest, ties-to-even), which is what the target's 32-bit
  software floating point does for operands in the normal range; every
  intermediate value of this driver lies well inside the normal range, so
  neither overflow nor subnormals need to be represented.  `fmul`/`fdiv`
  round the exact product/quotient once, which is the IEEE semantics of a
  single `float` operation.
-/

namespace Si5351

/-! ### The binary32 value model -/

/-- Powers of two with an integer exponent, as a rational. -/
def pow2z : ℤ → ℚ
  | Int.ofNat n => 2 ^ n
  | Int.negSucc n => 1 / 2 ^ (n + 1)

/-- Round a rational to the nearest integer, ties to even. -/
def rne (x : ℚ) : ℤ :=
  if x - ⌊x⌋ < 1 / 2 then ⌊x⌋
  else if 1 / 2 < x - ⌊x⌋ then ⌊x⌋ + 1
  else if Even ⌊x⌋ then ⌊x⌋ else ⌊x⌋ + 1

/-- Fuelled binary logarithm for arguments at least one: the largest `e`
with `2 ^ e ≤ q`. -/
def flogUp : ℕ → ℚ → ℕ
  | 0, _ => 0
  | fuel + 1, q => if q < 2 then 0 else flogUp fuel (q / 2) + 1

/-- Fuelled binary logarithm for arguments below one: the smallest `k`
with `1 ≤ q * 2 ^ k`. -/
def flogDown : ℕ → ℚ → ℕ
  | 0, _ => 0
  | fuel + 1, q => if 1 ≤ q then 0 else flogDown fuel (2 * q) + 1

/-- Floor of the binary logarithm of a positive rational (correct for
arguments between `2 ^ (-256)` and `2 ^ 256`, far beyond every value this
driver produces). -/
def flog (x : ℚ) : ℤ :=
  if 1 ≤ x then (flogUp 256 x : ℤ) else -(flogDown 256 x : ℤ)

/-- Round a nonnegative rational to the nearest binary32 value
(round-to-nearest, ties-to-even, 24-bit significand). -/
def fl (x : ℚ) : ℚ :=
  if x ≤ 0 then 0
  else (rne (x / pow2z (flog x - 23)) : ℚ) * pow2z (flog x - 23)

/-- One C `float` multiplication: round the exact product. -/
def fmul (a b : ℚ) : ℚ := fl (a * b)

/-- One C `float` division: round the exact quotient. -/
def fdiv (a b : ℚ) : ℚ := fl (a / b)

/-- The C cast `(unsigned long)` of a nonnegative `float`: truncation. -/
def ftruncN (x : ℚ) : ℕ := (⌊x⌋).toNat

/-- 32-bit unsigned wrap-around of an integer expression. -/
def u32 (n : ℤ) : ℕ := (n % (2 ^ 32 : ℤ)).toNat

/-- All rationals this driver feeds to `fl` lie in this generous range,
inside which `flog`'s fuel of 256 is sufficient. -/
def InRange (x : ℚ) : Prop := 1 / 2 ^ 200 ≤ x ∧ x ≤ 2 ^ 200

/-! ### Basic facts about `pow2z` and `rne` -/

theorem pow2z_eq (e : ℤ) : pow2z e = (2 : ℚ) ^ e := by
  cases e with
  | ofNat n => simp [pow2z, zpow_natCast]
  | negSucc n => simp [pow2z, zpow_negSucc, one_div]

theorem pow2z_pos (e : ℤ) : 0 < pow2z e := by
  rw [pow2z_eq]; exact zpow_pos (by norm_num) e

theorem rne_intCast (k : ℤ) : rne (k : ℚ) = k := by
  unfold rne
  simp [Int.floor_intCast]

theorem floor_le_rne (x : ℚ) : ⌊x⌋ ≤ rne x := by
  unfold rne
  split
  · exact le_refl _
  · split
    · exact Int.le.intro 1 rfl
    · split
      · exact le_refl _
      · exact Int.le.intro 1 rfl

theorem rne_le_floor_add_one (x : ℚ) : rne x ≤ ⌊x⌋ + 1 := by
  unfold rne
  split
  · exact Int.le.intro 1 rfl
  · split
    · exact le_refl _
    · split
      · exact Int.le.intro 1 rfl
      · exact le_refl _

theorem rne_ge (x : ℚ) : x - 1 / 2 ≤ (rne x : ℚ) := by
  have hfl : (⌊x⌋ : ℚ) ≤ x := Int.floor_le x
  have hfu : x < ⌊x⌋ + 1 := Int.lt_floor_add_one x
  unfold rne
  split
  · next h => linarith
  · split
    · next h => push_cast; linarith
    · split
      · next h1 h2 h3 =>
        have : x - ⌊x⌋ = 1 / 2 := le_antisymm (not_lt.mp h2) (not_lt.mp h1)
        linarith
      · next h1 h2 h3 => push_cast; linarith

theorem rne_le (x : ℚ) : (rne x : ℚ) ≤ x + 1 / 2 := by
  have hfl : (⌊x⌋ : ℚ) ≤ x := Int.floor_le x
  have hfu : x < ⌊x⌋ + 1 := Int.lt_floor_add_one x
  unfold rne
  split
  · next h => linarith
  · split
    · next h1 h2 => push_cast; linarith
    · split
      · next h1 h2 h3 =>
        have : x - ⌊x⌋ = 1 / 2 := le_antisymm (not_lt.mp h2) (not_lt.mp h1)
        linarith
      · next h1 h2 h3 =>
        have : x - ⌊x⌋ = 1 / 2 := le_antisymm (not_lt.mp h2) (not_lt.mp h1)
        push_cast; linarith

/-! ### Correctness of the fuelled logarithm -/

theorem flogUp_spec : ∀ (fuel : ℕ) (x : ℚ), 1 ≤ x → x < 2 ^ fuel →
    2 ^ flogUp fuel x ≤ x ∧ x < 2 ^ (flogUp fuel x + 1) := by
  intro fuel
  induction fuel with
  | zero => intro x h1 h2; norm_num at h2; linarith
  | succ fuel ih =>
    intro x h1 h2
    rw [flogUp]
    split
    · next h => simpa using ⟨h1, by simpa using h⟩
    · next h =>
      have h2' : (2 : ℚ) ≤ x := not_lt.mp h
      have hx2 : 1 ≤ x / 2 := by
        rw [le_div_iff₀ (by norm_num : (0:ℚ) < 2)]; linarith
      have hx2' : x / 2 < 2 ^ fuel := by
        rw [div_lt_iff₀ (by norm_num : (0:ℚ) < 2)]
        calc x < 2 ^ (fuel + 1) := h2
        _ = 2 ^ fuel * 2 := by ring
      obtain ⟨hl, hu⟩ := ih (x / 2) hx2 hx2'
      constructor
      · calc (2 : ℚ) ^ (flogUp fuel (x / 2) + 1) = 2 ^ flogUp fuel (x / 2) * 2 := by ring
        _ ≤ x / 2 * 2 := by linarith
        _ = x := by ring
      · calc x = x / 2 * 2 := by ring
        _ < 2 ^ (flogUp fuel (x / 2) + 1) * 2 := by linarith
        _ = 2 ^ (flogUp fuel (x / 2) + 1 + 1) := by ring

theorem flogDown_of_one_le (fuel : ℕ) (x : ℚ) (h : 1 ≤ x) :
    flogDown fuel x = 0 := by
  cases fuel with
  | zero => rfl
  | succ fuel => rw [flogDown, if_pos h]

theorem flogDown_spec : ∀ (fuel : ℕ) (x : ℚ), 0 < x → 1 ≤ x * 2 ^ fuel →
    1 ≤ x * 2 ^ flogDown fuel x ∧ (x < 1 → x * 2 ^ flogDown fuel x < 2) := by
  intro fuel
  induction fuel with
  | zero =>
    intro x hx h1
    simp only [pow_zero, mul_one] at h1
    simp only [flogDown, pow_zero, mul_one]
    exact ⟨h1, fun hlt => absurd h1 (not_le.mpr hlt)⟩
  | succ fuel ih =>
    intro x hx h1
    rw [flogDown]
    split
    · next h => simpa using ⟨h, fun hlt => absurd h (not_le.mpr hlt)⟩
    · next h =>
      have hxlt : x < 1 := not_le.mp h
      have h1' : 1 ≤ 2 * x * 2 ^ fuel := by
        calc (1 : ℚ) ≤ x * 2 ^ (fuel + 1) := h1
        _ = 2 * x * 2 ^ fuel := by ring
      obtain ⟨hl, hu⟩ := ih (2 * x) (by linarith) h1'
      constructor
      · calc (1 : ℚ) ≤ 2 * x * 2 ^ flogDown fuel (2 * x) := hl
        _ = x * 2 ^ (flogDown fuel (2 * x) + 1) := by ring
      · intro _
        by_cases h2x : 2 * x < 1
        · calc x * 2 ^ (flogDown fuel (2 * x) + 1) = 2 * x * 2 ^ flogDown fuel (2 * x) := by ring
          _ < 2 := hu h2x
        · have : flogDown fuel (2 * x) = 0 := flogDown_of_one_le _ _ (not_lt.mp h2x)
          rw [this]
          calc x * 2 ^ (0 + 1) = 2 * x := by ring
          _ < 2 := by linarith

theorem flog_spec (x : ℚ) (h : InRange x) :
    (2 : ℚ) ^ flog x ≤ x ∧ x < 2 ^ (flog x + 1) := by
  obtain ⟨hlo, hhi⟩ := h
  have hpos : 0 < x := lt_of_lt_of_le (by positivity) hlo
  unfold flog
  split
  · next h1 =>
    have hx256 : x < 2 ^ 256 := by
      calc x ≤ 2 ^ 200 := hhi
      _ < 2 ^ 256 := by norm_num
    obtain ⟨hl, hu⟩ := flogUp_spec 256 x h1 hx256
    constructor
    · rw [zpow_natCast]; exact hl
    · have : ((flogUp 256 x : ℤ) + 1) = ((flogUp 256 x + 1 : ℕ) : ℤ) := by push_cast; ring
      rw [this, zpow_natCast]; exact hu
  · next h1 =>
    have hxlt : x < 1 := not_le.mp h1
    have hfuel : 1 ≤ x * 2 ^ 256 := by
      calc (1 : ℚ) = (1 / 2 ^ 200) * 2 ^ 200 := by norm_num
      _ ≤ x * 2 ^ 200 := by
        apply mul_le_mul_of_nonneg_right hlo (by positivity)
      _ ≤ x * 2 ^ 256 := by
        apply mul_le_mul_of_nonneg_left (by norm_num) (le_of_lt hpos)
    obtain ⟨hl, hu⟩ := flogDown_spec 256 x hpos hfuel
    have hu' := hu hxlt
    set k := flogDown 256 x with hk
    have hk1 : 1 ≤ k := by
      by_contra hc
      have hk0 : k = 0 := by omega
      rw [hk0] at hl
      simp at hl
      linarith
    constructor
    · rw [zpow_neg, zpow_natCast]
      rw [inv_le_iff_one_le_mul₀ (by positivity)]
      linarith [hl]
    · have : (-(k : ℤ) + 1) = -((k - 1 : ℕ) : ℤ) := by omega
      rw [this, zpow_neg, zpow_natCast, inv_eq_one_div, lt_div_iff₀ (by positivity)]
      have hsplit : (2 : ℚ) ^ k = 2 ^ (k - 1) * 2 := by
        have hk' : k = (k - 1) + 1 := by omega
        conv_lhs => rw [hk']
        rw [pow_succ]
      calc x * 2 ^ (k - 1) = x * 2 ^ k / 2 := by rw [hsplit]; ring
      _ < 1 := by linarith

theorem flog_eq_of (x : ℚ) (e : ℤ) (h : InRange x)
    (hl : (2 : ℚ) ^ e ≤ x) (hu : x < 2 ^ (e + 1)) : flog x = e := by
  obtain ⟨hl', hu'⟩ := flog_spec x h
  by_contra hne
  rcases lt_or_gt_of_ne hne with hlt | hgt
  · have : flog x + 1 ≤ e := by omega
    have : (2 : ℚ) ^ (flog x + 1) ≤ 2 ^ e :=
      zpow_le_zpow_right₀ (by norm_num) this
    linarith
  · have : e + 1 ≤ flog x := by omega
    have : (2 : ℚ) ^ (e + 1) ≤ 2 ^ flog x :=
      zpow_le_zpow_right₀ (by norm_num) this
    linarith

/-! ### Bounds and exactness of binary32 rounding -/

theorem fl_pos_formula (x : ℚ) (hpos : 0 < x) :
    fl x = (rne (x / (2 : ℚ) ^ (flog x - 23)) : ℚ) * (2 : ℚ) ^ (flog x - 23) := by
  rw [fl, if_neg (not_le.mpr hpos), pow2z_eq]

theorem fl_nonneg (x : ℚ) : 0 ≤ fl x := by
  by_cases hx : x ≤ 0
  · rw [fl, if_pos hx]
  · have hpos : 0 < x := not_le.mp hx
    rw [fl_pos_formula x hpos]
    have hs : (0 : ℚ) < 2 ^ (flog x - 23) := zpow_pos (by norm_num) _
    have hy : 0 < x / 2 ^ (flog x - 23) := div_pos hpos hs
    have h0 : (0 : ℤ) ≤ ⌊x / (2 : ℚ) ^ (flog x - 23)⌋ := Int.le_floor.mpr (by exact_mod_cast le_of_lt hy)
    have h1 : (0 : ℤ) ≤ rne (x / (2 : ℚ) ^ (flog x - 23)) := le_trans h0 (floor_le_rne _)
    have : (0 : ℚ) ≤ (rne (x / (2 : ℚ) ^ (flog x - 23)) : ℚ) := by exact_mod_cast h1
    positivity

theorem zpow_sub_23 (e : ℤ) : (2 : ℚ) ^ (e - 23) * 2 ^ (23 : ℕ) = 2 ^ e := by
  rw [← zpow_natCast (2 : ℚ) 23, ← zpow_add₀ (by norm_num : (2 : ℚ) ≠ 0)]
  norm_num

theorem two_pow_mul_zpow (a : ℕ) (e : ℤ) :
    (2 : ℚ) ^ a * (2 : ℚ) ^ e = 2 ^ ((a : ℤ) + e) := by
  rw [← zpow_natCast (2 : ℚ) a, ← zpow_add₀ (by norm_num : (2 : ℚ) ≠ 0)]

theorem fl_le (x : ℚ) (h : InRange x) : fl x ≤ x + x / 2 ^ 24 := by
  have hpos : 0 < x := lt_of_lt_of_le (by positivity) h.1
  obtain ⟨hl, hu⟩ := flog_spec x h
  set e := flog x with he
  have hs : (0 : ℚ) < 2 ^ (e - 23) := zpow_pos (by norm_num) _
  rw [fl_pos_formula x hpos, ← he]
  have h1 : (rne (x / 2 ^ (e - 23)) : ℚ) ≤ x / 2 ^ (e - 23) + 1 / 2 := rne_le _
  have h2 := mul_le_mul_of_nonneg_right h1 (le_of_lt hs)
  have hxs : x / 2 ^ (e - 23) * 2 ^ (e - 23) = x := div_mul_cancel₀ x (ne_of_gt hs)
  have hsle : (2 : ℚ) ^ (e - 23) ≤ x / 2 ^ (23 : ℕ) := by
    rw [le_div_iff₀ (by positivity)]
    calc (2 : ℚ) ^ (e - 23) * 2 ^ (23 : ℕ) = 2 ^ e := zpow_sub_23 e
    _ ≤ x := hl
  have hfin : x / 2 ^ (23 : ℕ) / 2 = x / 2 ^ (24 : ℕ) := by
    rw [div_div]
    norm_num
  calc (rne (x / 2 ^ (e - 23)) : ℚ) * 2 ^ (e - 23)
      ≤ (x / 2 ^ (e - 23) + 1 / 2) * 2 ^ (e - 23) := h2
  _ = x + 2 ^ (e - 23) / 2 := by rw [add_mul, hxs]; ring
  _ ≤ x + x / 2 ^ (23 : ℕ) / 2 := by linarith
  _ = x + x / 2 ^ 24 := by rw [hfin]

theorem le_fl (x : ℚ) (h : InRange x) : x - x / 2 ^ 24 ≤ fl x := by
  have hpos : 0 < x := lt_of_lt_of_le (by positivity) h.1
  obtain ⟨hl, hu⟩ := flog_spec x h
  set e := flog x with he
  have hs : (0 : ℚ) < 2 ^ (e - 23) := zpow_pos (by norm_num) _
  rw [fl_pos_formula x hpos, ← he]
  have h1 : x / 2 ^ (e - 23) - 1 / 2 ≤ (rne (x / 2 ^ (e - 23)) : ℚ) := rne_ge _
  have h2 := mul_le_mul_of_nonneg_right h1 (le_of_lt hs)
  have hxs : x / 2 ^ (e - 23) * 2 ^ (e - 23) = x := div_mul_cancel₀ x (ne_of_gt hs)
  have hsle : (2 : ℚ) ^ (e - 23) ≤ x / 2 ^ (23 : ℕ) := by
    rw [le_div_iff₀ (by positivity)]
    calc (2 : ℚ) ^ (e - 23) * 2 ^ (23 : ℕ) = 2 ^ e := zpow_sub_23 e
    _ ≤ x := hl
  have hfin : x / 2 ^ (23 : ℕ) / 2 = x / 2 ^ (24 : ℕ) := by
    rw [div_div]
    norm_num
  calc x - x / 2 ^ 24 = x - x / 2 ^ (23 : ℕ) / 2 := by rw [hfin]
  _ ≤ x - 2 ^ (e - 23) / 2 := by linarith
  _ = (x / 2 ^ (e - 23) - 1 / 2) * 2 ^ (e - 23) := by rw [sub_mul, hxs]; ring
  _ ≤ (rne (x / 2 ^ (e - 23)) : ℚ) * 2 ^ (e - 23) := h2

theorem fl_rep (x : ℚ) (h : InRange x) :
    ∃ m : ℤ, 2 ^ 23 ≤ m ∧ m ≤ 2 ^ 24 ∧ fl x = (m : ℚ) * 2 ^ (flog x - 23) := by
  have hpos : 0 < x := lt_of_lt_of_le (by positivity) h.1
  obtain ⟨hl, hu⟩ := flog_spec x h
  set e := flog x with he
  have hs : (0 : ℚ) < 2 ^ (e - 23) := zpow_pos (by norm_num) _
  refine ⟨rne (x / 2 ^ (e - 23)), ?_, ?_, ?_⟩
  · have ylow : ((2 ^ 23 : ℤ) : ℚ) ≤ x / 2 ^ (e - 23) := by
      rw [le_div_iff₀ hs]
      push_cast
      calc ((2 : ℚ) ^ (23 : ℕ)) * 2 ^ (e - 23) = 2 ^ (e - 23) * 2 ^ (23 : ℕ) := by ring
      _ = 2 ^ e := zpow_sub_23 e
      _ ≤ x := hl
    exact le_trans (Int.le_floor.mpr ylow) (floor_le_rne _)
  · have yhigh : x / 2 ^ (e - 23) < ((2 ^ 24 : ℤ) : ℚ) := by
      rw [div_lt_iff₀ hs]
      push_cast
      calc x < 2 ^ (e + 1) := hu
      _ = (2 : ℚ) ^ (24 : ℕ) * 2 ^ (e - 23) := by
        rw [two_pow_mul_zpow]
        congr 1
        omega
    have hfloor : ⌊x / (2 : ℚ) ^ (e - 23)⌋ < 2 ^ 24 := Int.floor_lt.mpr yhigh
    have := rne_le_floor_add_one (x / (2 : ℚ) ^ (e - 23))
    omega
  · rw [fl_pos_formula x hpos, ← he]

theorem fl_eq_self_aux (x : ℚ) (m k : ℤ) (h : InRange x)
    (hx : x = (m : ℚ) * 2 ^ k) (_hm1 : 0 < m) (hm2 : m < 2 ^ 24) : fl x = x := by
  have hpos : 0 < x := lt_of_lt_of_le (by positivity) h.1
  obtain ⟨hl, hu⟩ := flog_spec x h
  set e := flog x with he
  have hklt : x < (2 : ℚ) ^ (k + 24) := by
    have h24 : (2 : ℚ) ^ (k + 24) = ((2 ^ 24 : ℤ) : ℚ) * 2 ^ k := by
      rw [zpow_add₀ (by norm_num : (2 : ℚ) ≠ 0) k 24]
      norm_num
      ring
    rw [hx, h24]
    have hmq : (m : ℚ) < ((2 ^ 24 : ℤ) : ℚ) := by exact_mod_cast hm2
    exact mul_lt_mul_of_pos_right hmq (zpow_pos (by norm_num) k)
  have he_lt : e < k + 24 := by
    have h2 : (2 : ℚ) ^ e < 2 ^ (k + 24) := lt_of_le_of_lt hl hklt
    exact (zpow_lt_zpow_iff_right₀ (by norm_num) ).mp h2
  have hj : (0 : ℤ) ≤ k + 23 - e := by omega
  set j := (k + 23 - e).toNat with hjdef
  have hjz : (j : ℤ) = k + 23 - e := Int.toNat_of_nonneg hj
  have hyint : x / (2 : ℚ) ^ (e - 23) = ((m * 2 ^ j : ℤ) : ℚ) := by
    rw [hx, div_eq_iff (ne_of_gt (zpow_pos (by norm_num : (0:ℚ) < 2) (e - 23)))]
    push_cast
    rw [← zpow_natCast (2 : ℚ) j, mul_assoc, ← zpow_add₀ (by norm_num : (2 : ℚ) ≠ 0)]
    congr 2
    omega
  rw [fl_pos_formula x hpos, ← he, hyint, rne_intCast]
  push_cast
  rw [mul_assoc, ← zpow_natCast (2 : ℚ) j, ← zpow_add₀ (by norm_num : (2 : ℚ) ≠ 0), hx]
  congr 2
  omega

theorem fl_eq_self (x : ℚ) (m k : ℤ) (h : InRange x)
    (hx : x = (m : ℚ) * 2 ^ k) (hm1 : 0 < m) (hm2 : m ≤ 2 ^ 24) : fl x = x := by
  by_cases hm : m = 2 ^ 24
  · have hx' : x = ((2 ^ 23 : ℤ) : ℚ) * 2 ^ (k + 1) := by
      rw [hx, hm, zpow_add₀ (by norm_num : (2 : ℚ) ≠ 0) k 1, zpow_one]
      push_cast
      ring
    exact fl_eq_self_aux x (2 ^ 23) (k + 1) h hx' (by norm_num) (by norm_num)
  · exact fl_eq_self_aux x m k h hx hm1 (lt_of_le_of_ne hm2 hm)

theorem fl_natCast (n : ℕ) (hn : n ≤ 2 ^ 24) : fl (n : ℚ) = n := by
  rcases Nat.eq_zero_or_pos n with h0 | h0
  · rw [h0]; simp [fl]
  · have hIR : InRange (n : ℚ) := by
      constructor
      · calc (1 : ℚ) / 2 ^ 200 ≤ 1 := by norm_num
        _ ≤ (n : ℚ) := by exact_mod_cast h0
      · calc (n : ℚ) ≤ ((2 ^ 24 : ℕ) : ℚ) := by exact_mod_cast hn
        _ ≤ 2 ^ 200 := by norm_num
    have := fl_eq_self (n : ℚ) (n : ℤ) 0 hIR (by push_cast; ring) (by exact_mod_cast h0)
      (by exact_mod_cast hn)
    simpa using this

theorem fl_eval (x s : ℚ) (e m : ℤ) (h : InRange x)
    (hl : (2 : ℚ) ^ e ≤ x) (hu : x < 2 ^ (e + 1))
    (hs : s = (2 : ℚ) ^ (e - 23)) (hm : rne (x / s) = m) : fl x = m * s := by
  have hpos : 0 < x := lt_of_lt_of_le (by positivity) h.1
  rw [fl_pos_formula x hpos, flog_eq_of x e h hl hu, ← hs, hm]

/-! ### Constants from `Si5351SDR.h` -/

def Si5351A_XTAL_FREQ : ℕ := 24999117

def SI_SYNTH_PLL_A : ℕ := 26

def SI_SYNTH_MS_0 : ℕ := 42

def SI_SYNTH_MS_1 : ℕ := 50

def SI_R_DIV_1 : ℕ := 0

def CLK0_PHOFF : ℕ := 165

def CLK1_PHOFF : ℕ := 166

/-! ### `sendRegister`: the observable effect is one `(address, value)` write

Both C parameters are 8-bit `char`, hence the `% 2 ^ 8`. -/

def sendRegister (regAddr regValue : ℕ) : List (ℕ × ℕ) :=
  [(regAddr % 2 ^ 8, regValue % 2 ^ 8)]

/-! ### `setupPLL`

The C bit operations are written arithmetically:
`(P & 0x0000FF00) >> 8` is `P / 2 ^ 8 % 2 ^ 8`, `(P & 0x000000FF)` is
`P % 2 ^ 8`, `(P & 0x00030000) >> 16` is `P / 2 ^ 16 % 4`, and
`((P3 & 0x000F0000) >> 12) | ((P2 & 0x000F0000) >> 16)` is an OR of the
disjoint bit ranges 7:4 and 3:0, hence the sum
`P3 / 2 ^ 16 % 2 ^ 4 * 2 ^ 4 + P2 / 2 ^ 16 % 2 ^ 4`. -/

/-- The first assignment to `P1` (and identically to `P2`):
`(unsigned long)(128 * ((float)num / (float)denom))`. -/
def pllP1trunc (num denom : ℕ) : ℕ :=
  ftruncN (fmul (fl 128) (fdiv (fl num) (fl denom)))

/-- The second assignment to `P1`:
`(unsigned long)(128 * (unsigned long)(mult) + P1 - 512)`. -/
def pllP1 (mult num denom : ℕ) : ℕ :=
  u32 (128 * mult + (pllP1trunc num denom : ℤ) - 512)

/-- The second assignment to `P2`: `(unsigned long)(128 * num - denom * P2)`. -/
def pllP2 (num denom : ℕ) : ℕ :=
  u32 (128 * num - (denom : ℤ) * pllP1trunc num denom)

def setupPLL (pll mult num denom : ℕ) : List (ℕ × ℕ) :=
  sendRegister (pll + 0) (denom / 2 ^ 8 % 2 ^ 8) ++
  sendRegister (pll + 1) (denom % 2 ^ 8) ++
  sendRegister (pll + 2) (pllP1 mult num denom / 2 ^ 16 % 4) ++
  sendRegister (pll + 3) (pllP1 mult num denom / 2 ^ 8 % 2 ^ 8) ++
  sendRegister (pll + 4) (pllP1 mult num denom % 2 ^ 8) ++
  sendRegister (pll + 5)
    (denom / 2 ^ 16 % 2 ^ 4 * 2 ^ 4 + pllP2 num denom / 2 ^ 16 % 2 ^ 4) ++
  sendRegister (pll + 6) (pllP2 num denom / 2 ^ 8 % 2 ^ 8) ++
  sendRegister (pll + 7) (pllP2 num denom % 2 ^ 8)

/-! ### `setupMultisynth`

`P1 = 128 * divider - 512` in 32-bit unsigned arithmetic, `P2 = 0`,
`P3 = 1`.  At offset +2 the rDiv code (bits 6:4, disjoint from P1's bits
1:0) is ORed in, again written as a sum. -/

def msP1 (divider : ℕ) : ℕ := u32 (128 * divider - 512)

def setupMultisynth (synth divider rDiv : ℕ) : List (ℕ × ℕ) :=
  sendRegister (synth + 0) ((1 : ℕ) / 2 ^ 8 % 2 ^ 8) ++
  sendRegister (synth + 1) ((1 : ℕ) % 2 ^ 8) ++
  sendRegister (synth + 2) (msP1 divider / 2 ^ 16 % 4 + rDiv) ++
  sendRegister (synth + 3) (msP1 divider / 2 ^ 8 % 2 ^ 8) ++
  sendRegister (synth + 4) (msP1 divider % 2 ^ 8) ++
  sendRegister (synth + 5) ((1 : ℕ) / 2 ^ 16 % 2 ^ 4 * 2 ^ 4 + (0 : ℕ) / 2 ^ 16 % 2 ^ 4) ++
  sendRegister (synth + 6) ((0 : ℕ) / 2 ^ 8 % 2 ^ 8) ++
  sendRegister (synth + 7) ((0 : ℕ) % 2 ^ 8)

/-! ### `si5351aSetFrequency`

The local `divider` is declared without an initializer and is assigned by
two consecutive `if` statements; this is modelled by an `Option ℕ` that
starts as `none`. -/

/-- State of `divider` after `if (frequency < 9050001) divider = 124;`. -/
def dividerA (frequency : ℕ) : Option ℕ :=
  if frequency < 9050001 then some 124 else none

/-- State of `divider` after the second `if (frequency > 9050000) divider = 44;`. -/
def dividerB (frequency : ℕ) : Option ℕ :=
  if frequency > 9050000 then some 44 else dividerA frequency

/-- The value of `divider` that is read below (always assigned; claim C10). -/
def divider (frequency : ℕ) : ℕ := (dividerB frequency).getD 0

/-- `pllFreq = divider * frequency` (`unsigned long`, 32-bit). -/
def pllFreq (frequency : ℕ) : ℕ := divider frequency * frequency % 2 ^ 32

/-- `mult = pllFreq / xtalFreq` (`unsigned char`, 8-bit). -/
def mult (frequency : ℕ) : ℕ := pllFreq frequency / Si5351A_XTAL_FREQ % 2 ^ 8

/-- `l = pllFreq % xtalFreq`. -/
def lrem (frequency : ℕ) : ℕ := pllFreq frequency % Si5351A_XTAL_FREQ

/-- The float pipeline `f = l; f *= 1048575; f /= xtalFreq; num = f;`
as a function of `l`. -/
def numFromL (l : ℕ) : ℕ :=
  ftruncN (fdiv (fmul (fl l) (fl 1048575)) (fl Si5351A_XTAL_FREQ)) % 2 ^ 32

/-- `num` as computed for a given input frequency. -/
def num (frequency : ℕ) : ℕ := numFromL (lrem frequency)

/-- `denom = 1048575`. -/
def denom : ℕ := 1048575

/-- The complete write trace of one `si5351aSetFrequency(frequency)` call. -/
def si5351aSetFrequency (frequency : ℕ) : List (ℕ × ℕ) :=
  setupPLL SI_SYNTH_PLL_A (mult frequency) (num frequency) denom ++
  setupMultisynth SI_SYNTH_MS_0 (divider frequency) SI_R_DIV_1 ++
  setupMultisynth SI_SYNTH_MS_1 (divider frequency) SI_R_DIV_1 ++
  sendRegister CLK0_PHOFF (divider frequency) ++
  sendRegister CLK1_PHOFF 0

/-! ### Trace observation helpers -/

/-- The writes a trace makes to one register address. -/
def writesTo (t : List (ℕ × ℕ)) (a : ℕ) : List (ℕ × ℕ) :=
  t.filter (fun w => w.1 == a)

/-- The writes a trace makes to the addresses `lo..hi`. -/
def writesRange (t : List (ℕ × ℕ)) (lo hi : ℕ) : List (ℕ × ℕ) :=
  t.filter (fun w => decide (lo ≤ w.1) && decide (w.1 ≤ hi))

/-- The data bytes of a trace, in order. -/
def vals (t : List (ℕ × ℕ)) : List ℕ := t.map Prod.snd

/-! ### Inverse of the 8-byte register layout (spec §4.2)

`b 0 .. b 7` are the bytes at offsets +0 .. +7; P1 sits in
`(b 2)[1:0], b 3, b 4`, P2 in `(b 5)[3:0], b 6, b 7`, and P3 in
`(b 5)[7:4], b 0, b 1`. -/

def unpackP1 (t : List (ℕ × ℕ)) : ℕ :=
  (vals t).getD 2 0 % 4 * 2 ^ 16 + (vals t).getD 3 0 * 2 ^ 8 + (vals t).getD 4 0

def unpackP2 (t : List (ℕ × ℕ)) : ℕ :=
  (vals t).getD 5 0 % 2 ^ 4 * 2 ^ 16 + (vals t).getD 6 0 * 2 ^ 8 + (vals t).getD 7 0

def unpackP3 (t : List (ℕ × ℕ)) : ℕ :=
  (vals t).getD 5 0 / 2 ^ 4 * 2 ^ 16 + (vals t).getD 0 0 * 2 ^ 8 + (vals t).getD 1 0

/-- Modelled from the spec, §4.3: the eight-byte integer-mode Multisynth
frame for a given base register, output divider and rDiv code, built from
`P1 = 128 * divider - 512`, `P2 = 0`, `P3 = 1` and the §4.2 byte layout
with rDiv ORed into offset +2.  This is the specification-side frame that
the code's `setupMultisynth` output is compared against. -/
def specIntegerFrame (base divider rDiv : ℕ) : List (ℕ × ℕ) :=
  [(base, 0), (base + 1, 1),
   (base + 2, (128 * divider - 512) / 2 ^ 16 % 4 + rDiv),
   (base + 3, (128 * divider - 512) / 2 ^ 8 % 2 ^ 8),
   (base + 4, (128 * divider - 512) % 2 ^ 8),
   (base + 5, 0), (base + 6, 0), (base + 7, 0)]

/-! ### Evaluating `rne` and `fl` at concrete points -/

theorem rne_eq_lt (x : ℚ) (n : ℤ) (h1 : (n : ℚ) ≤ x) (h2 : x - n < 1 / 2) :
    rne x = n := by
  have hfl : ⌊x⌋ = n := Int.floor_eq_iff.mpr ⟨h1, by linarith⟩
  unfold rne
  rw [hfl, if_pos h2]

theorem rne_eq_gt (x : ℚ) (n : ℤ) (h1 : (n : ℚ) ≤ x) (h2 : x < n + 1)
    (h3 : 1 / 2 < x - n) : rne x = n + 1 := by
  have hfl : ⌊x⌋ = n := Int.floor_eq_iff.mpr ⟨h1, h2⟩
  unfold rne
  rw [hfl, if_neg (by linarith), if_pos h3]

theorem rne_eq_tie (x : ℚ) (n : ℤ) (h1 : (n : ℚ) ≤ x) (h2 : x - n = 1 / 2)
    (h3 : Even n) : rne x = n := by
  have hfl : ⌊x⌋ = n := Int.floor_eq_iff.mpr ⟨h1, by linarith⟩
  unfold rne
  rw [hfl, if_neg (by linarith), if_neg (by linarith), if_pos h3]

/-- The crystal constant is odd and needs 25 significand bits, so binary32
rounds it: the tie between 24999116 and 24999118 goes to the even
significand, 24999116. -/
theorem fl_xtal : fl ((Si5351A_XTAL_FREQ : ℕ) : ℚ) = 24999116 := by
  have hcast : ((Si5351A_XTAL_FREQ : ℕ) : ℚ) = 24999117 := by
    norm_num [Si5351A_XTAL_FREQ]
  have hm : rne ((24999117 : ℚ) / 2) = 12499558 := by
    apply rne_eq_tie
    · norm_num
    · norm_num
    · decide
  have h := fl_eval (24999117 : ℚ) 2 24 12499558 (by constructor <;> norm_num)
    (by norm_num) (by norm_num) (by norm_num) hm
  rw [hcast, h]
  norm_num

theorem fl_lit_1048575 : fl (1048575 : ℚ) = 1048575 := by
  have h := fl_natCast 1048575 (by norm_num)
  norm_num at h
  exact h

/-- Common tail of the three concrete `num` evaluations: once the two
float rounding steps are known, `numFromL` is determined. -/
theorem numFromL_eq (l : ℕ) (f2 f3 : ℚ) (n : ℕ)
    (hfl : fl ((l : ℕ) : ℚ) = ((l : ℕ) : ℚ))
    (h2 : fl (((l : ℕ) : ℚ) * 1048575) = f2)
    (h3 : fl (f2 / 24999116) = f3)
    (hn : ⌊f3⌋ = (n : ℤ)) (hn32 : n < 2 ^ 32) : numFromL l = n := by
  unfold numFromL fmul fdiv ftruncN
  rw [fl_xtal, hfl, fl_lit_1048575, h2, h3, hn]
  simp only [Int.toNat_natCast]
  omega

theorem numFromL_5430905 : numFromL 5430905 = 227796 := by
  apply numFromL_eq 5430905 5694711398400 (14578977 / 64) 227796
  · exact fl_natCast 5430905 (by norm_num)
  · rw [show (((5430905 : ℕ) : ℚ)) * 1048575 = 5694711210375 by norm_num]
    have hm : rne ((5694711210375 : ℚ) / 524288) = 10861800 := by
      have h := rne_eq_gt ((5694711210375 : ℚ) / 524288) 10861799
        (by norm_num) (by norm_num) (by norm_num)
      exact h.trans (by norm_num)
    have h := fl_eval (5694711210375 : ℚ) 524288 42 10861800
      (by constructor <;> norm_num) (by norm_num) (by norm_num) (by norm_num) hm
    rw [h]
    norm_num
  · have hm : rne ((5694711398400 : ℚ) / 24999116 / (1 / 64)) = 14578977 := by
      have h := rne_eq_gt ((5694711398400 : ℚ) / 24999116 / (1 / 64)) 14578976
        (by norm_num) (by norm_num) (by norm_num)
      exact h.trans (by norm_num)
    have h := fl_eval ((5694711398400 : ℚ) / 24999116) (1 / 64) 17 14578977
      (by constructor <;> norm_num) (by norm_num) (by norm_num) (by norm_num) hm
    rw [h]
    norm_num
  · rw [Int.floor_eq_iff]
    constructor <;> norm_num
  · norm_num

theorem numFromL_5432145 : numFromL 5432145 = 227848 := by
  apply numFromL_eq 5432145 5696011632640 (14582305 / 64) 227848
  · exact fl_natCast 5432145 (by norm_num)
  · rw [show (((5432145 : ℕ) : ℚ)) * 1048575 = 5696011443375 by norm_num]
    have hm : rne ((5696011443375 : ℚ) / 524288) = 10864280 := by
      have h := rne_eq_gt ((5696011443375 : ℚ) / 524288) 10864279
        (by norm_num) (by norm_num) (by norm_num)
      exact h.trans (by norm_num)
    have h := fl_eval (5696011443375 : ℚ) 524288 42 10864280
      (by constructor <;> norm_num) (by norm_num) (by norm_num) (by norm_num) hm
    rw [h]
    norm_num
  · have hm : rne ((5696011632640 : ℚ) / 24999116 / (1 / 64)) = 14582305 := by
      apply rne_eq_lt
      · norm_num
      · norm_num
    have h := fl_eval ((5696011632640 : ℚ) / 24999116) (1 / 64) 17 14582305
      (by constructor <;> norm_num) (by norm_num) (by norm_num) (by norm_num) hm
    rw [h]
    norm_num
  · rw [Int.floor_eq_iff]
    constructor <;> norm_num
  · norm_num

theorem numFromL_18035602 : numFromL 18035602 = 756494 := by
  apply numFromL_eq 18035602 18911680528384 756494 756494
  · apply fl_eq_self ((18035602 : ℕ) : ℚ) 9017801 1 (by constructor <;> norm_num)
    · norm_num
    · norm_num
    · norm_num
  · rw [show (((18035602 : ℕ) : ℚ)) * 1048575 = 18911681367150 by norm_num]
    have hm : rne ((18911681367150 : ℚ) / 2097152) = 9017792 := by
      apply rne_eq_lt
      · norm_num
      · norm_num
    have h := fl_eval (18911681367150 : ℚ) 2097152 44 9017792
      (by constructor <;> norm_num) (by norm_num) (by norm_num) (by norm_num) hm
    rw [h]
    norm_num
  · have hm : rne ((18911680528384 : ℚ) / 24999116 / (1 / 16)) = 12103904 := by
      have h := rne_eq_gt ((18911680528384 : ℚ) / 24999116 / (1 / 16)) 12103903
        (by norm_num) (by norm_num) (by norm_num)
      exact h.trans (by norm_num)
    have h := fl_eval ((18911680528384 : ℚ) / 24999116) (1 / 16) 19 12103904
      (by constructor <;> norm_num) (by norm_num) (by norm_num) (by norm_num) hm
    rw [h]
    norm_num
  · rw [Int.floor_eq_iff]
    constructor <;> norm_num
  · norm_num

theorem fl_lit_128 : fl (128 : ℚ) = 128 := by
  have h := fl_natCast 128 (by norm_num)
  norm_num at h
  exact h

/-- Common tail of the concrete `setupPLL` quotient evaluations
(`(unsigned long)(128 * ((float)num / (float)denom))` at `denom = 1048575`). -/
theorem pllP1trunc_eval (n : ℕ) (hn : n ≤ 2 ^ 24) (d : ℚ) (q : ℕ)
    (hd : fl (((n : ℕ) : ℚ) / ((1048575 : ℕ) : ℚ)) = d)
    (h128 : fl (128 * d) = 128 * d)
    (hq : ⌊(128 : ℚ) * d⌋ = (q : ℤ)) :
    pllP1trunc n 1048575 = q := by
  unfold pllP1trunc fmul fdiv ftruncN
  rw [fl_natCast n hn, fl_natCast 1048575 (by norm_num), hd, fl_lit_128, h128, hq,
    Int.toNat_natCast]

theorem pllP1trunc_227796 : pllP1trunc 227796 1048575 = 27 := by
  apply pllP1trunc_eval 227796 (by norm_num) (7289479 / 33554432) 27
  · have hm : rne (((227796 : ℕ) : ℚ) / ((1048575 : ℕ) : ℚ) / (1 / 67108864)) =
        14578958 := by
      have h := rne_eq_gt (((227796 : ℕ) : ℚ) / ((1048575 : ℕ) : ℚ) / (1 / 67108864))
        14578957 (by norm_num) (by norm_num) (by norm_num)
      exact h.trans (by norm_num)
    have h := fl_eval (((227796 : ℕ) : ℚ) / ((1048575 : ℕ) : ℚ)) (1 / 67108864)
      (-3) 14578958 (by constructor <;> norm_num) (by norm_num) (by norm_num)
      (by norm_num) hm
    exact h.trans (by norm_num)
  · rw [show (128 : ℚ) * (7289479 / 33554432) = 14578958 * 2 ^ ((-19 : ℤ)) by norm_num]
    apply fl_eq_self (14578958 * 2 ^ ((-19 : ℤ))) 14578958 (-19)
      (by constructor <;> norm_num) rfl (by norm_num) (by norm_num)
  · rw [Int.floor_eq_iff]
    constructor <;> norm_num

theorem pllP1trunc_227848 : pllP1trunc 227848 1048575 = 27 := by
  apply pllP1trunc_eval 227848 (by norm_num) (7291143 / 33554432) 27
  · have hm : rne (((227848 : ℕ) : ℚ) / ((1048575 : ℕ) : ℚ) / (1 / 67108864)) =
        14582286 := by
      have h := rne_eq_gt (((227848 : ℕ) : ℚ) / ((1048575 : ℕ) : ℚ) / (1 / 67108864))
        14582285 (by norm_num) (by norm_num) (by norm_num)
      exact h.trans (by norm_num)
    have h := fl_eval (((227848 : ℕ) : ℚ) / ((1048575 : ℕ) : ℚ)) (1 / 67108864)
      (-3) 14582286 (by constructor <;> norm_num) (by norm_num) (by norm_num)
      (by norm_num) hm
    exact h.trans (by norm_num)
  · rw [show (128 : ℚ) * (7291143 / 33554432) = 14582286 * 2 ^ ((-19 : ℤ)) by norm_num]
    apply fl_eq_self (14582286 * 2 ^ ((-19 : ℤ))) 14582286 (-19)
      (by constructor <;> norm_num) rfl (by norm_num) (by norm_num)
  · rw [Int.floor_eq_iff]
    constructor <;> norm_num

/-- At `num = 1040383` the exact quotient `128 * num / denom` is
`127 - 1/1048575`, but binary32 rounding of `num / denom` lands on
`127/128` exactly, so the truncated float quotient is 127 while the exact
floor is 126. -/
theorem pllP1trunc_1040383 : pllP1trunc 1040383 1048575 = 127 := by
  apply pllP1trunc_eval 1040383 (by norm_num) (127 / 128) 127
  · have hm : rne (((1040383 : ℕ) : ℚ) / ((1048575 : ℕ) : ℚ) / (1 / 16777216)) =
        16646144 := by
      have h := rne_eq_gt (((1040383 : ℕ) : ℚ) / ((1048575 : ℕ) : ℚ) / (1 / 16777216))
        16646143 (by norm_num) (by norm_num) (by norm_num)
      exact h.trans (by norm_num)
    have h := fl_eval (((1040383 : ℕ) : ℚ) / ((1048575 : ℕ) : ℚ)) (1 / 16777216)
      (-1) 16646144 (by constructor <;> norm_num) (by norm_num) (by norm_num)
      (by norm_num) hm
    exact h.trans (by norm_num)
  · rw [show (128 : ℚ) * (127 / 128) = ((127 : ℕ) : ℚ) by norm_num]
    rw [fl_natCast 127 (by norm_num)]
  · rw [Int.floor_eq_iff]
    constructor <;> norm_num

theorem num_7100000 : num 7100000 = 227796 := by
  have h : lrem 7100000 = 5430905 := by decide
  unfold num
  rw [h, numFromL_5430905]

theorem num_7100010 : num 7100010 = 227848 := by
  have h : lrem 7100010 = 5432145 := by decide
  unfold num
  rw [h, numFromL_5432145]

theorem num_7000045 : num 7000045 = 756494 := by
  have h : lrem 7000045 = 18035602 := by decide
  unfold num
  rw [h, numFromL_18035602]

/-! ### Shared helper facts -/

theorem fl_zero : fl 0 = 0 := by
  simp [fl]

theorem divider_eq (F : ℕ) : divider F = if F ≤ 9050000 then 124 else 44 := by
  unfold divider dividerB dividerA
  by_cases h : F ≤ 9050000
  · rw [if_pos h, if_neg (by omega), if_pos (by omega)]
    rfl
  · rw [if_pos (by omega), if_neg h]
    rfl

theorem divider_cases (F : ℕ) : divider F = 124 ∨ divider F = 44 := by
  rw [divider_eq]
  by_cases h : F ≤ 9050000
  · rw [if_pos h]; left; rfl
  · rw [if_neg h]; right; rfl

theorem lrem_lt (F : ℕ) : lrem F < 24999117 := by
  unfold lrem Si5351A_XTAL_FREQ
  omega

theorem floor_natCast_div (a b : ℕ) (hb : 0 < b) :
    ⌊((a : ℕ) : ℚ) / ((b : ℕ) : ℚ)⌋ = ((a / b : ℕ) : ℤ) := by
  have hbq : (0 : ℚ) < (b : ℚ) := by exact_mod_cast hb
  rw [Int.floor_eq_iff]
  constructor
  · rw [le_div_iff₀ hbq]
    have h : (a / b) * b ≤ a := Nat.div_mul_le_self a b
    push_cast
    exact_mod_cast h
  · rw [div_lt_iff₀ hbq]
    have h2 := Nat.mod_lt a hb
    have h : a < (a / b + 1) * b := by
      calc a = b * (a / b) + a % b := (Nat.div_add_mod a b).symm
      _ < b * (a / b) + b := Nat.add_lt_add_left h2 _
      _ = (a / b + 1) * b := by ring
    push_cast
    exact_mod_cast h

/-- The PLL-segment bytes of `setupPLL`, explicitly. -/
theorem setupPLL_vals (pll m n d : ℕ) :
    vals (setupPLL pll m n d) =
      [d / 2 ^ 8 % 2 ^ 8 % 2 ^ 8, d % 2 ^ 8 % 2 ^ 8,
       pllP1 m n d / 2 ^ 16 % 4 % 2 ^ 8, pllP1 m n d / 2 ^ 8 % 2 ^ 8 % 2 ^ 8,
       pllP1 m n d % 2 ^ 8 % 2 ^ 8,
       (d / 2 ^ 16 % 2 ^ 4 * 2 ^ 4 + pllP2 n d / 2 ^ 16 % 2 ^ 4) % 2 ^ 8,
       pllP2 n d / 2 ^ 8 % 2 ^ 8 % 2 ^ 8, pllP2 n d % 2 ^ 8 % 2 ^ 8] := rfl

theorem pll_writes_7100000 :
    writesRange (si5351aSetFrequency 7100000) 26 33 =
      [(26, 255), (27, 255), (28, 0), (29, 15), (30, 155),
       (31, 252), (32, 234), (33, 27)] := by
  have hm : mult 7100000 = 35 := by decide
  have hP1 : pllP1 35 227796 1048575 = 3995 := by
    unfold pllP1
    rw [pllP1trunc_227796]
    decide
  have hP2 : pllP2 227796 1048575 = 846363 := by
    unfold pllP2
    rw [pllP1trunc_227796]
    decide
  simp only [si5351aSetFrequency, hm, num_7100000, denom, setupPLL, hP1, hP2]
  decide

theorem pll_writes_7100010 :
    writesRange (si5351aSetFrequency 7100010) 26 33 =
      [(26, 255), (27, 255), (28, 0), (29, 15), (30, 155),
       (31, 253), (32, 4), (33, 27)] := by
  have hm : mult 7100010 = 35 := by decide
  have hP1 : pllP1 35 227848 1048575 = 3995 := by
    unfold pllP1
    rw [pllP1trunc_227848]
    decide
  have hP2 : pllP2 227848 1048575 = 853019 := by
    unfold pllP2
    rw [pllP1trunc_227848]
    decide
  simp only [si5351aSetFrequency, hm, num_7100010, denom, setupPLL, hP1, hP2]
  decide

/-! ### The claims -/

/-- C1: band selection of `si5351aSetFrequency`: for every input frequency,
the selected output divider is 124 when the frequency is at most
9,050,000 Hz (the boundary value 9,050,000 is taken by the 124 branch) and
44 when it is above 9,050,000 Hz. -/
theorem C1_band_selection (F : ℕ) :
    divider F = if F ≤ 9050000 then 124 else 44 :=
  divider_eq F

/-- C4: quadrature phase-offset writes: every call writes register 165 with
the selected divider (44 or 124) and register 166 with 0, and since the
divider is at most 124 < 128 the written byte never has bit 7 set. -/
theorem C4_phase_offset_writes (F : ℕ) :
    writesTo (si5351aSetFrequency F) 165 = [(165, divider F)] ∧
    writesTo (si5351aSetFrequency F) 166 = [(166, 0)] ∧
    (divider F = 124 ∨ divider F = 44) ∧
    Nat.testBit (divider F) 7 = false := by
  have hdiv := divider_cases F
  refine ⟨?_, rfl, hdiv, ?_⟩
  · have h : writesTo (si5351aSetFrequency F) 165 = [(165, divider F % 2 ^ 8)] := rfl
    rw [h]
    rcases hdiv with h1 | h1 <;> rw [h1] <;> rfl
  · rcases hdiv with h1 | h1 <;> rw [h1] <;> rfl

/-- C6: write ordering: one `si5351aSetFrequency` call writes, in order,
PLL A (26..33), Multisynth 0 (42..49), Multisynth 1 (50..57), the CLK0
phase offset (165) and the CLK1 phase offset (166). -/
theorem C6_write_order (F : ℕ) :
    (si5351aSetFrequency F).map Prod.fst =
      [26, 27, 28, 29, 30, 31, 32, 33, 42, 43, 44, 45, 46, 47, 48, 49,
       50, 51, 52, 53, 54, 55, 56, 57, 165, 166] := rfl

/-- C10: the local `divider` is always assigned before `pllFreq = divider *
frequency` reads it: for every unsigned 32-bit input, one of the two guards
`frequency < 9050001` and `frequency > 9050000` holds, so after the two
`if` statements the modelled option state is `some`. -/
theorem C10_divider_initialized (F : ℕ) (h : F < 2 ^ 32) :
    (F < 9050001 ∨ F > 9050000) ∧ (dividerB F).isSome = true := by
  constructor
  · omega
  · unfold dividerB dividerA
    by_cases h1 : F > 9050000
    · rw [if_pos h1]
      rfl
    · rw [if_neg h1, if_pos (by omega)]
      rfl

theorem C10_divider_initialized_witness :
    9050000 < 2 ^ 32 ∧
    ((9050000 < 9050001 ∨ 9050000 > 9050000) ∧ (dividerB 9050000).isSome = true) :=
  ⟨by norm_num, C10_divider_initialized 9050000 (by norm_num)⟩

/-- C8 (counterexample): the spec's worked example S1 does not match the
code at F = 7,100,000: the computed remainder is 5,430,905, not the claimed
19,730,905, and the computed num is 227,796, not the claimed 827,532. -/
theorem C8_worked_example_cex :
    lrem 7100000 ≠ 19730905 ∧ num 7100000 ≠ 827532 := by
  constructor
  · decide
  · rw [num_7100000]
    decide

/-- C8 (amended): for F = 7,100,000 the code computes divider = 124,
pllFreq = 880,400,000, mult = 35, remainder = 5,430,905, num = 227,796
(which here coincides with the exact floor of
remainder * 1048575 / 24999117) and denom = 1,048,575. -/
theorem C8_worked_example :
    divider 7100000 = 124 ∧ pllFreq 7100000 = 880400000 ∧
    mult 7100000 = 35 ∧ lrem 7100000 = 5430905 ∧
    num 7100000 = 227796 ∧
    num 7100000 = lrem 7100000 * 1048575 / Si5351A_XTAL_FREQ ∧
    denom = 1048575 := by
  refine ⟨by decide, by decide, by decide, by decide, num_7100000, ?_, rfl⟩
  rw [num_7100000]
  decide

/-- C9: retuning from 7,100,000 Hz to 7,100,010 Hz changes at least one of
the PLL bytes (registers 26..33) while the Multisynth bytes (registers
42..57) are identical between the two calls. -/
theorem C9_small_retune :
    writesRange (si5351aSetFrequency 7100000) 26 33 ≠
      writesRange (si5351aSetFrequency 7100010) 26 33 ∧
    writesRange (si5351aSetFrequency 7100000) 42 57 =
      writesRange (si5351aSetFrequency 7100010) 42 57 := by
  constructor
  · rw [pll_writes_7100000, pll_writes_7100010]
    decide
  · decide

/-- Rounding `x` to binary32 never drops `128 * x` below the next lower
multiple of 1/128: for `0 < x < 1` the value `k/128` with
`k = ⌊128 x⌋` is itself representable, so round-to-nearest cannot go
below it. -/
theorem fl_floor_128_ge (x : ℚ) (hIR : InRange x) (hpos : 0 < x)
    (hlt : x < 1) : (⌊(128 : ℚ) * x⌋ : ℚ) ≤ 128 * fl x := by
  obtain ⟨hspecl, hspecu⟩ := flog_spec x hIR
  have hs : (0 : ℚ) < 2 ^ (flog x - 23) := zpow_pos (by norm_num) _
  have he_neg : flog x < 0 := by
    have h20 : (2 : ℚ) ^ flog x < 2 ^ (0 : ℤ) := by
      rw [zpow_zero]
      exact lt_of_le_of_lt hspecl hlt
    exact (zpow_lt_zpow_iff_right₀ (by norm_num)).mp h20
  have htz : ((16 - flog x).toNat : ℤ) = 16 - flog x := Int.toNat_of_nonneg (by omega)
  have hts : (2 : ℚ) ^ (16 - flog x).toNat * 2 ^ (flog x - 23) = 1 / 128 := by
    rw [two_pow_mul_zpow]
    rw [show (((16 - flog x).toNat : ℤ) + (flog x - 23)) = (-7 : ℤ) by omega]
    rw [show ((-7 : ℤ)) = -((7 : ℕ) : ℤ) by norm_num, zpow_neg, zpow_natCast]
    norm_num
  have hyx : x / 2 ^ (flog x - 23) = 128 * x * 2 ^ (16 - flog x).toNat := by
    rw [div_eq_iff (ne_of_gt hs)]
    calc x = x * (128 * ((2 : ℚ) ^ (16 - flog x).toNat * 2 ^ (flog x - 23))) := by
          rw [hts]; ring
    _ = 128 * x * 2 ^ (16 - flog x).toNat * 2 ^ (flog x - 23) := by ring
  have hZ : ⌊(128 : ℚ) * x⌋ * 2 ^ (16 - flog x).toNat ≤ ⌊x / 2 ^ (flog x - 23)⌋ := by
    apply Int.le_floor.mpr
    rw [hyx]
    push_cast
    exact mul_le_mul_of_nonneg_right (Int.floor_le _) (by positivity)
  have hfl_ge : (⌊x / 2 ^ (flog x - 23)⌋ : ℚ) * 2 ^ (flog x - 23) ≤ fl x := by
    rw [fl_pos_formula x hpos]
    exact mul_le_mul_of_nonneg_right (by exact_mod_cast floor_le_rne _) (le_of_lt hs)
  have hchain : (⌊(128 : ℚ) * x⌋ : ℚ) * (1 / 128) ≤ fl x := by
    calc (⌊(128 : ℚ) * x⌋ : ℚ) * (1 / 128)
        = ((⌊(128 : ℚ) * x⌋ * 2 ^ (16 - flog x).toNat : ℤ) : ℚ) * 2 ^ (flog x - 23) := by
          push_cast
          rw [mul_assoc, hts]
    _ ≤ (⌊x / 2 ^ (flog x - 23)⌋ : ℚ) * 2 ^ (flog x - 23) :=
          mul_le_mul_of_nonneg_right (by exact_mod_cast hZ) (le_of_lt hs)
    _ ≤ fl x := hfl_ge
  linarith [hchain]

/-- A binary32 value times 128 (an exact power of two) is again a binary32
value, so the second float multiplication in `setupPLL` is exact. -/
theorem fl_128_mul_fl (x : ℚ) (hIR : InRange x) (hlow : 1 / 2 ^ 30 ≤ fl x)
    (hhigh : fl x ≤ 1) : fl (128 * fl x) = 128 * fl x := by
  obtain ⟨m, hm23, hm24, hrep⟩ := fl_rep x hIR
  have hIR2 : InRange (128 * fl x) := by
    constructor
    · calc (1 : ℚ) / 2 ^ 200 ≤ 128 * (1 / 2 ^ 30) := by norm_num
      _ ≤ 128 * fl x := by linarith
    · calc (128 : ℚ) * fl x ≤ 128 * 1 := by linarith
      _ ≤ 2 ^ 200 := by norm_num
  have hrep2 : 128 * fl x = (m : ℚ) * 2 ^ (flog x - 16) := by
    rw [hrep, show (128 : ℚ) = 2 ^ (7 : ℕ) by norm_num]
    calc (2 : ℚ) ^ (7 : ℕ) * ((m : ℚ) * 2 ^ (flog x - 23))
        = (m : ℚ) * ((2 : ℚ) ^ (7 : ℕ) * 2 ^ (flog x - 23)) := by ring
    _ = (m : ℚ) * 2 ^ (((7 : ℕ) : ℤ) + (flog x - 23)) := by rw [two_pow_mul_zpow]
    _ = (m : ℚ) * 2 ^ (flog x - 16) := by
        rw [show (((7 : ℕ) : ℤ) + (flog x - 23)) = flog x - 16 by push_cast; ring]
  exact fl_eq_self _ m (flog x - 16) hIR2 hrep2
    (lt_of_lt_of_le (by norm_num) hm23) hm24

/-- Truncating `128 * fl x` recovers `⌊128 x⌋` or `⌊128 x⌋ + 1`, and stays
below 128 when `x ≤ 1048574/1048575`. -/
theorem trunc128_bounds (x : ℚ) (k : ℤ) (hIR : InRange x) (hpos : 0 < x)
    (hle : x ≤ 1048574 / 1048575) (hk : ⌊(128 : ℚ) * x⌋ = k) :
    (⌊(128 : ℚ) * fl x⌋ = k ∨ ⌊(128 : ℚ) * fl x⌋ = k + 1) ∧
    ⌊(128 : ℚ) * fl x⌋ ≤ 127 := by
  have hlt1 : x < 1 := lt_of_le_of_lt hle (by norm_num)
  have hup : fl x ≤ x + x / 2 ^ 24 := fl_le x hIR
  have hupper : ⌊(128 : ℚ) * fl x⌋ ≤ k + 1 := by
    have h1 : (128 : ℚ) * fl x ≤ 128 * x + ((1 : ℤ) : ℚ) := by
      push_cast
      linarith [hup, hlt1]
    calc ⌊(128 : ℚ) * fl x⌋ ≤ ⌊(128 : ℚ) * x + ((1 : ℤ) : ℚ)⌋ := Int.floor_le_floor h1
    _ = ⌊(128 : ℚ) * x⌋ + 1 := Int.floor_add_int _ _
    _ = k + 1 := by rw [hk]
  have hlower : k ≤ ⌊(128 : ℚ) * fl x⌋ := by
    rw [← hk]
    apply Int.le_floor.mpr
    exact fl_floor_128_ge x hIR hpos hlt1
  have h127 : ⌊(128 : ℚ) * fl x⌋ < 128 := by
    apply Int.floor_lt.mpr
    have : fl x < 1 := by linarith [hup, hle]
    push_cast
    linarith
  exact ⟨by omega, by omega⟩

/-- The float-computed quotient `(unsigned long)(128 * ((float)num /
(float)denom))` at `denom = 1048575` equals the exact `⌊128 num / denom⌋`
or that plus one, and never exceeds 127 for `num ≤ 1048574`. -/
theorem pllP1trunc_bounds (n : ℕ) (hn : n ≤ 1048574) :
    (pllP1trunc n 1048575 = 128 * n / 1048575 ∨
     pllP1trunc n 1048575 = 128 * n / 1048575 + 1) ∧
    pllP1trunc n 1048575 ≤ 127 := by
  rcases Nat.eq_zero_or_pos n with h0 | h0
  · subst h0
    have hz : pllP1trunc 0 1048575 = 0 := by
      unfold pllP1trunc fmul fdiv ftruncN
      simp [fl_lit_128, fl_zero]
    rw [hz]
    norm_num
  · have hn24 : n ≤ 2 ^ 24 := by omega
    have hq1 : (1 : ℚ) ≤ (n : ℚ) := by exact_mod_cast h0
    have hqle : (n : ℚ) ≤ 1048574 := by exact_mod_cast hn
    have hxpos : 0 < (n : ℚ) / ((1048575 : ℕ) : ℚ) :=
      div_pos (by exact_mod_cast h0) (by norm_num)
    have hxIR : InRange ((n : ℚ) / ((1048575 : ℕ) : ℚ)) := by
      constructor
      · push_cast
        rw [div_le_div_iff₀ (by norm_num) (by norm_num)]
        linarith [hq1]
      · push_cast
        rw [div_le_iff₀ (by norm_num)]
        have h : (1 : ℚ) ≤ 2 ^ 200 * 1048575 := by norm_num
        linarith [hqle]
    have hxle : (n : ℚ) / ((1048575 : ℕ) : ℚ) ≤ 1048574 / 1048575 := by
      push_cast
      rw [div_le_div_iff₀ (by norm_num) (by norm_num)]
      linarith [hqle]
    have hk : ⌊(128 : ℚ) * ((n : ℚ) / ((1048575 : ℕ) : ℚ))⌋ =
        ((128 * n / 1048575 : ℕ) : ℤ) := by
      have hx128 : (128 : ℚ) * ((n : ℚ) / ((1048575 : ℕ) : ℚ)) =
          ((128 * n : ℕ) : ℚ) / ((1048575 : ℕ) : ℚ) := by
        push_cast
        ring
      rw [hx128, floor_natCast_div _ _ (by norm_num)]
    obtain ⟨hor, h127⟩ :=
      trunc128_bounds ((n : ℚ) / ((1048575 : ℕ) : ℚ)) _ hxIR hxpos hxle hk
    have hfl_low : (1 : ℚ) / 2 ^ 30 ≤ fl ((n : ℚ) / ((1048575 : ℕ) : ℚ)) := by
      have h1 := le_fl _ hxIR
      have h2 : (1 : ℚ) / 1048575 ≤ (n : ℚ) / ((1048575 : ℕ) : ℚ) := by
        push_cast
        rw [div_le_div_iff₀ (by norm_num) (by norm_num)]
        linarith [hq1]
      linarith [h1, h2]
    have hfl_high : fl ((n : ℚ) / ((1048575 : ℕ) : ℚ)) ≤ 1 := by
      have h1 := fl_le _ hxIR
      linarith [h1, hxle]
    have hQ : pllP1trunc n 1048575 =
        (⌊(128 : ℚ) * fl ((n : ℚ) / ((1048575 : ℕ) : ℚ))⌋).toNat := by
      unfold pllP1trunc fmul fdiv ftruncN
      rw [fl_lit_128, fl_natCast n hn24, fl_natCast 1048575 (by norm_num),
        fl_128_mul_fl _ hxIR hfl_low hfl_high]
    rw [hQ]
    constructor
    · rcases hor with h | h
      · left
        omega
      · right
        omega
    · omega

/-- C3 (counterexample): at (mult, num, denom) = (15, 1040383, 1048575) the
float quotient rounds 1040383/1048575 up to exactly 127/128, so the packed
P1 decodes to 1535 while the claimed 128 mult + ⌊128 num/denom⌋ − 512 is
1534. -/
theorem C3_pll_roundtrip_cex :
    unpackP1 (setupPLL 26 15 1040383 1048575) ≠
      128 * 15 + 128 * 1040383 / 1048575 - 512 := by
  have hP1 : pllP1 15 1040383 1048575 = 1535 := by
    unfold pllP1
    rw [pllP1trunc_1040383]
    decide
  have h : unpackP1 (setupPLL 26 15 1040383 1048575) = 1535 := by
    unfold unpackP1
    rw [setupPLL_vals]
    simp only [List.getD_cons_zero, List.getD_cons_succ]
    rw [hP1]
    decide
  rw [h]
  decide

/-- C3 (amended): for every (mult, num, denom = 1048575) with mult in
[15, 90] and num in [0, 1048574], unpacking the eight bytes emitted by
setupPLL by the inverse of the layout recovers P3 = denom,
P1 = 128 mult + q − 512 and P2 ≡ 128 num − denom q (mod 2^20,
represented in [0, 2^20)), where q is the float-computed quotient, which
equals ⌊128 num / denom⌋ or ⌊128 num / denom⌋ + 1. -/
theorem C3_pll_roundtrip (m n : ℕ) (hm1 : 15 ≤ m) (hm2 : m ≤ 90)
    (hn : n ≤ 1048574) :
    unpackP3 (setupPLL 26 m n 1048575) = 1048575 ∧
    unpackP1 (setupPLL 26 m n 1048575) =
      128 * m + pllP1trunc n 1048575 - 512 ∧
    (unpackP2 (setupPLL 26 m n 1048575) : ℤ) =
      (128 * n - 1048575 * pllP1trunc n 1048575) % 2 ^ 20 ∧
    (pllP1trunc n 1048575 = 128 * n / 1048575 ∨
     pllP1trunc n 1048575 = 128 * n / 1048575 + 1) := by
  obtain ⟨hor, h127⟩ := pllP1trunc_bounds n hn
  have hP1 : pllP1 m n 1048575 = 128 * m + pllP1trunc n 1048575 - 512 := by
    unfold pllP1 u32
    omega
  have hP2a : (pllP2 n 1048575 : ℤ) =
      (128 * n - 1048575 * pllP1trunc n 1048575) % 2 ^ 32 := by
    unfold pllP2 u32
    omega
  have hP2lt : pllP2 n 1048575 < 2 ^ 32 := by
    unfold pllP2 u32
    omega
  refine ⟨?_, ?_, ?_, hor⟩
  · unfold unpackP3
    rw [setupPLL_vals]
    simp only [List.getD_cons_zero, List.getD_cons_succ]
    omega
  · unfold unpackP1
    rw [setupPLL_vals]
    simp only [List.getD_cons_zero, List.getD_cons_succ]
    rw [hP1]
    omega
  · have key : ∀ A : ℕ, A < 2 ^ 32 →
        (1048575 / 2 ^ 16 % 2 ^ 4 * 2 ^ 4 + A / 2 ^ 16 % 2 ^ 4) % 2 ^ 8 % 2 ^ 4 * 2 ^ 16 +
          A / 2 ^ 8 % 2 ^ 8 % 2 ^ 8 * 2 ^ 8 + A % 2 ^ 8 % 2 ^ 8 = A % 2 ^ 20 := by
      intro A hA
      omega
    unfold unpackP2
    rw [setupPLL_vals]
    simp only [List.getD_cons_zero, List.getD_cons_succ]
    rw [key (pllP2 n 1048575) hP2lt]
    omega

theorem C3_pll_roundtrip_witness :
    (15 ≤ 15 ∧ 15 ≤ 90 ∧ 1040383 ≤ 1048574) ∧
    (unpackP3 (setupPLL 26 15 1040383 1048575) = 1048575 ∧
     unpackP1 (setupPLL 26 15 1040383 1048575) =
       128 * 15 + pllP1trunc 1040383 1048575 - 512 ∧
     (unpackP2 (setupPLL 26 15 1040383 1048575) : ℤ) =
       (128 * 1040383 - 1048575 * pllP1trunc 1040383 1048575) % 2 ^ 20 ∧
     (pllP1trunc 1040383 1048575 = 128 * 1040383 / 1048575 ∨
      pllP1trunc 1040383 1048575 = 128 * 1040383 / 1048575 + 1)) :=
  ⟨⟨by norm_num, by norm_num, by norm_num⟩,
   C3_pll_roundtrip 15 1040383 (by norm_num) (by norm_num) (by norm_num)⟩

/-- C5: Multisynth frame content: for every F in the supported range the
eight bytes written at registers 42..49 equal the spec's integer-mode frame
(P1 = 128 * divider - 512, P2 = 0, P3 = 1, rDiv = divide-by-1) for
divider = 124 when F ≤ 9.05 MHz and for divider = 44 when F > 9.05 MHz,
the same for registers 50..57, and the MS0 and MS1 frames are
byte-identical. -/
theorem C5_multisynth_frames (F : ℕ) (_h1 : 3500000 ≤ F) (_h2 : F ≤ 30000000) :
    writesRange (si5351aSetFrequency F) 42 49 =
      specIntegerFrame 42 (if F ≤ 9050000 then 124 else 44) SI_R_DIV_1 ∧
    writesRange (si5351aSetFrequency F) 50 57 =
      specIntegerFrame 50 (if F ≤ 9050000 then 124 else 44) SI_R_DIV_1 ∧
    vals (writesRange (si5351aSetFrequency F) 42 49) =
      vals (writesRange (si5351aSetFrequency F) 50 57) := by
  have hd := divider_eq F
  by_cases hb : F ≤ 9050000
  · rw [if_pos hb] at hd
    rw [if_pos hb]
    simp only [si5351aSetFrequency, hd]
    exact ⟨rfl, rfl, rfl⟩
  · rw [if_neg hb] at hd
    rw [if_neg hb]
    simp only [si5351aSetFrequency, hd]
    exact ⟨rfl, rfl, rfl⟩

/-- Error analysis of the float pipeline `num = trunc(fl(fl(fl(l) * 1048575)
/ fl(24999117)))`: each of the three roundings has relative error at most
`2 ^ (-24)` and the divisor itself is rounded from 24999117 to 24999116, so
the computed `num` is at most 1048575 and differs from the exact
`l * 1048575 / 24999117` by at most one. -/
theorem numFromL_bounds (l : ℕ) (hl : l < 24999117) :
    numFromL l ≤ 1048575 ∧
    ((l * 1048575 / 24999117 : ℕ) : ℤ) - 1 ≤ (numFromL l : ℤ) ∧
    (numFromL l : ℤ) ≤ ((l * 1048575 / 24999117 : ℕ) : ℤ) + 1 := by
  rcases Nat.eq_zero_or_pos l with h0 | h0
  · subst h0
    have hz : numFromL 0 = 0 := by
      unfold numFromL fmul fdiv ftruncN
      rw [fl_xtal, Nat.cast_zero, fl_zero, zero_mul, fl_zero, zero_div, fl_zero]
      simp
    rw [hz]
    norm_num
  · have hL1 : (1 : ℚ) ≤ (l : ℚ) := by exact_mod_cast h0
    have hL2 : (l : ℚ) ≤ 24999116 := by
      have h : l ≤ 24999116 := by omega
      exact_mod_cast h
    have hIR1 : InRange ((l : ℚ)) := by
      constructor
      · calc (1 : ℚ) / 2 ^ 200 ≤ 1 := by norm_num
        _ ≤ (l : ℚ) := hL1
      · calc (l : ℚ) ≤ 24999116 := hL2
        _ ≤ 2 ^ 200 := by norm_num
    have hA1 : fl (l : ℚ) ≤ (l : ℚ) + (l : ℚ) / 2 ^ 24 := fl_le _ hIR1
    have hA2 : (l : ℚ) - (l : ℚ) / 2 ^ 24 ≤ fl (l : ℚ) := le_fl _ hIR1
    have hfl_lb : (1 : ℚ) / 2 ≤ fl (l : ℚ) := by linarith [hA2, hL1]
    have hfl_ub : fl (l : ℚ) ≤ 24999118 := by linarith [hA1, hL2]
    have hIR2 : InRange (fl (l : ℚ) * 1048575) := by
      constructor
      · linarith [hfl_lb]
      · calc fl (l : ℚ) * 1048575 ≤ 24999118 * 1048575 := by linarith [hfl_ub]
        _ ≤ 2 ^ 200 := by norm_num
    have hA3 : fl (fl (l : ℚ) * 1048575) ≤
        fl (l : ℚ) * 1048575 + fl (l : ℚ) * 1048575 / 2 ^ 24 := fl_le _ hIR2
    have hA4 : fl (l : ℚ) * 1048575 - fl (l : ℚ) * 1048575 / 2 ^ 24 ≤
        fl (fl (l : ℚ) * 1048575) := le_fl _ hIR2
    have hf2_lb : (500000 : ℚ) ≤ fl (fl (l : ℚ) * 1048575) := by
      linarith [hA4, hfl_lb]
    have hf2_ub : fl (fl (l : ℚ) * 1048575) ≤ 24999119 * 1048575 := by
      linarith [hA3, hfl_ub]
    have hIR3 : InRange (fl (fl (l : ℚ) * 1048575) / 24999116) := by
      constructor
      · calc (1 : ℚ) / 2 ^ 200 ≤ 500000 / 24999116 := by norm_num
        _ ≤ fl (fl (l : ℚ) * 1048575) / 24999116 := by linarith [hf2_lb]
      · have hstep : fl (fl (l : ℚ) * 1048575) / 24999116 ≤
            24999119 * 1048575 / 24999116 := by linarith [hf2_ub]
        calc fl (fl (l : ℚ) * 1048575) / 24999116
            ≤ 24999119 * 1048575 / 24999116 := hstep
        _ ≤ 2 ^ 200 := by norm_num
    have hA5 : fl (fl (fl (l : ℚ) * 1048575) / 24999116) ≤
        fl (fl (l : ℚ) * 1048575) / 24999116 +
        fl (fl (l : ℚ) * 1048575) / 24999116 / 2 ^ 24 := fl_le _ hIR3
    have hA6 : fl (fl (l : ℚ) * 1048575) / 24999116 -
        fl (fl (l : ℚ) * 1048575) / 24999116 / 2 ^ 24 ≤
        fl (fl (fl (l : ℚ) * 1048575) / 24999116) := le_fl _ hIR3
    -- the two half-unit bounds against the exact value
    have hup : fl (fl (fl (l : ℚ) * 1048575) / 24999116) ≤
        (l : ℚ) * (1048575 / 24999117) + 1 / 2 := by
      linarith [hA1, hA3, hA5, hL2, hL1]
    have hdown : (l : ℚ) * (1048575 / 24999117) - 1 / 2 ≤
        fl (fl (fl (l : ℚ) * 1048575) / 24999116) := by
      linarith [hA2, hA4, hA6, hL2, hL1]
    -- the exact value's floor is the integer division
    have hV : ⌊(l : ℚ) * (1048575 / 24999117)⌋ =
        ((l * 1048575 / 24999117 : ℕ) : ℤ) := by
      have hV1 : (l : ℚ) * (1048575 / 24999117) =
          ((l * 1048575 : ℕ) : ℚ) / ((24999117 : ℕ) : ℚ) := by
        push_cast
        ring
      rw [hV1, floor_natCast_div _ _ (by norm_num)]
    have hVlt : (l : ℚ) * (1048575 / 24999117) < 1048575 := by
      linarith [hL2]
    have hfup : ⌊fl (fl (fl (l : ℚ) * 1048575) / 24999116)⌋ ≤
        ((l * 1048575 / 24999117 : ℕ) : ℤ) + 1 := by
      rw [← hV]
      have h1 : fl (fl (fl (l : ℚ) * 1048575) / 24999116) ≤
          (l : ℚ) * (1048575 / 24999117) + ((1 : ℤ) : ℚ) := by
        push_cast
        linarith [hup]
      calc ⌊fl (fl (fl (l : ℚ) * 1048575) / 24999116)⌋
          ≤ ⌊(l : ℚ) * (1048575 / 24999117) + ((1 : ℤ) : ℚ)⌋ := Int.floor_le_floor h1
      _ = ⌊(l : ℚ) * (1048575 / 24999117)⌋ + 1 := Int.floor_add_int _ _
    have hfdown : ((l * 1048575 / 24999117 : ℕ) : ℤ) - 1 ≤
        ⌊fl (fl (fl (l : ℚ) * 1048575) / 24999116)⌋ := by
      rw [← hV]
      have h1 : (l : ℚ) * (1048575 / 24999117) + ((-1 : ℤ) : ℚ) ≤
          fl (fl (fl (l : ℚ) * 1048575) / 24999116) := by
        push_cast
        linarith [hdown]
      calc ⌊(l : ℚ) * (1048575 / 24999117)⌋ - 1
          = ⌊(l : ℚ) * (1048575 / 24999117) + ((-1 : ℤ) : ℚ)⌋ := by
            rw [Int.floor_add_int]
            ring
      _ ≤ ⌊fl (fl (fl (l : ℚ) * 1048575) / 24999116)⌋ := Int.floor_le_floor h1
    have hfnn : (0 : ℤ) ≤ ⌊fl (fl (fl (l : ℚ) * 1048575) / 24999116)⌋ := by
      apply Int.le_floor.mpr
      exact_mod_cast fl_nonneg _
    have hf1048575 : ⌊fl (fl (fl (l : ℚ) * 1048575) / 24999116)⌋ ≤ 1048575 := by
      have h1 : fl (fl (fl (l : ℚ) * 1048575) / 24999116) < ((1048576 : ℤ) : ℚ) := by
        push_cast
        linarith [hup, hVlt]
      have := Int.floor_lt.mpr h1
      omega
    have hnum : numFromL l =
        (⌊fl (fl (fl (l : ℚ) * 1048575) / 24999116)⌋).toNat % 2 ^ 32 := by
      unfold numFromL fmul fdiv ftruncN
      rw [fl_lit_1048575, fl_xtal]
    rw [hnum]
    omega

/-- C2 (counterexample): at the in-range frequency F = 7,000,045 Hz the
code's float pipeline yields num = 756,494 while the exact floor
remainder * 1048575 / xtalFreq is 756,493. -/
theorem C2_fractional_numerator_cex :
    3500000 ≤ 7000045 ∧ 7000045 ≤ 30000000 ∧
    num 7000045 ≠ lrem 7000045 * 1048575 / Si5351A_XTAL_FREQ := by
  refine ⟨by norm_num, by norm_num, ?_⟩
  rw [num_7000045]
  decide

/-- C2 (amended): for every F in the supported range, the num handed to
setupPLL differs from the exact integer floor
remainder * 1048575 / xtalFreq by at most one (the float pipeline's three
roundings can move the truncation across an integer boundary in either
direction), and denom is exactly 1048575. -/
theorem C2_fractional_numerator (F : ℕ) (_h1 : 3500000 ≤ F)
    (_h2 : F ≤ 30000000) :
    ((num F : ℤ) - ((lrem F * 1048575 / Si5351A_XTAL_FREQ : ℕ) : ℤ)).natAbs ≤ 1 ∧
    denom = 1048575 := by
  obtain ⟨hle, hlo, hhi⟩ := numFromL_bounds (lrem F) (lrem_lt F)
  constructor
  · have hn : num F = numFromL (lrem F) := rfl
    unfold Si5351A_XTAL_FREQ
    rw [hn]
    omega
  · rfl

theorem C2_fractional_numerator_witness :
    (3500000 ≤ 7100000 ∧ 7100000 ≤ 30000000) ∧
    (((num 7100000 : ℤ) -
      ((lrem 7100000 * 1048575 / Si5351A_XTAL_FREQ : ℕ) : ℤ)).natAbs ≤ 1 ∧
     denom = 1048575) :=
  ⟨⟨by norm_num, by norm_num⟩,
   C2_fractional_numerator 7100000 (by norm_num) (by norm_num)⟩

/-- C7: multiplier-range invariant: for every F in the supported range
[3.5 MHz, 30 MHz], the planned fractional multiplier mult + num/denom lies
in [15, 90]. -/
theorem C7_multiplier_range (F : ℕ) (h1 : 3500000 ≤ F) (h2 : F ≤ 30000000) :
    (15 : ℚ) ≤ (mult F : ℚ) + (num F : ℚ) / (denom : ℚ) ∧
    (mult F : ℚ) + (num F : ℚ) / (denom : ℚ) ≤ 90 := by
  have hnum_le : num F ≤ 1048575 := (numFromL_bounds (lrem F) (lrem_lt F)).1
  have hmult : 15 ≤ mult F ∧ mult F ≤ 52 := by
    by_cases hb : F ≤ 9050000
    · have hd : divider F = 124 := by rw [divider_eq, if_pos hb]
      have hpf : pllFreq F = 124 * F := by
        unfold pllFreq
        rw [hd]
        apply Nat.mod_eq_of_lt
        omega
      have hq : 124 * F / 24999117 < 2 ^ 8 := by omega
      unfold mult Si5351A_XTAL_FREQ
      rw [hpf, Nat.mod_eq_of_lt hq]
      constructor <;> omega
    · have hd : divider F = 44 := by rw [divider_eq, if_neg hb]
      have hpf : pllFreq F = 44 * F := by
        unfold pllFreq
        rw [hd]
        apply Nat.mod_eq_of_lt
        omega
      have hq : 44 * F / 24999117 < 2 ^ 8 := by omega
      unfold mult Si5351A_XTAL_FREQ
      rw [hpf, Nat.mod_eq_of_lt hq]
      constructor <;> omega
  obtain ⟨hm15, hm52⟩ := hmult
  have hdq : (denom : ℚ) = 1048575 := by norm_num [denom]
  have hnq1 : (0 : ℚ) ≤ (num F : ℚ) := by positivity
  have hnq2 : (num F : ℚ) ≤ 1048575 := by exact_mod_cast hnum_le
  have hmq1 : (15 : ℚ) ≤ (mult F : ℚ) := by exact_mod_cast hm15
  have hmq2 : (mult F : ℚ) ≤ 52 := by exact_mod_cast hm52
  rw [hdq]
  constructor
  · have h : (0 : ℚ) ≤ (num F : ℚ) / 1048575 := by positivity
    linarith
  · have h : (num F : ℚ) / 1048575 ≤ 1 := by
      rw [div_le_one (by norm_num)]
      linarith
    linarith

theorem C7_multiplier_range_witness :
    (3500000 ≤ 7100000 ∧ 7100000 ≤ 30000000) ∧
    ((15 : ℚ) ≤ (mult 7100000 : ℚ) + (num 7100000 : ℚ) / (denom : ℚ) ∧
     (mult 7100000 : ℚ) + (num 7100000 : ℚ) / (denom : ℚ) ≤ 90) :=
  ⟨⟨by norm_num, by norm_num⟩,
   C7_multiplier_range 7100000 (by norm_num) (by norm_num)⟩

theorem C5_multisynth_frames_witness :
    (3500000 ≤ 7100000 ∧ 7100000 ≤ 30000000) ∧
    (writesRange (si5351aSetFrequency 7100000) 42 49 =
      specIntegerFrame 42 (if 7100000 ≤ 9050000 then 124 else 44) SI_R_DIV_1 ∧
    writesRange (si5351aSetFrequency 7100000) 50 57 =
      specIntegerFrame 50 (if 7100000 ≤ 9050000 then 124 else 44) SI_R_DIV_1 ∧
    vals (writesRange (si5351aSetFrequency 7100000) 42 49) =
      vals (writesRange (si5351aSetFrequency 7100000) 50 57)) :=
  ⟨⟨by norm_num, by norm_num⟩,
   C5_multisynth_frames 7100000 (by norm_num) (by norm_num)⟩

end Si5351
